import Mathlib

/-!
# N-Queens visualizer: the enumeration engine and the playback index

A shallow embedding of `src/Application.cpp`:

* `solveNQueens` (lines 15-36), the recursive backtracking search over a shared
  column buffer `cols` and a shared output list `solutions`;
* the `Compute Solutions`, `Prev`, `Next` and auto-advance steps of the main loop
  (lines 112-140), as functions on the part of the program state they touch.

Modelling conventions.

* `std::vector<int>` is `List Int`, `std::vector<std::vector<int>>` is
  `List (List Int)`; `push_back` appends at the end.
* An `int` is an `Int`.  The two subtractions and the two `abs` calls of line 27
  are reduced to the 32-bit two's complement range by `wrap32`.  The counters
  `r`, `c` and `row + 1` stay between 0 and `row`, resp. `N`, and are not wrapped.
* `cols[i]` outside the bounds of the buffer is a fault (`Fault.outOfRange`), both
  for reads and for writes.
* `cols.assign(N, -1)` takes its count as a `size_t`: a negative `int` converts to a
  count above the largest size of a vector and the call throws `std::length_error`
  (`Fault.lengthError`); nothing in `main` catches it.
* The two `for` loops run over `0 .. row-1` and `0 .. N-1`; they are recursions on
  the number of iterations left.  The recursion of `solveNQueens` itself is bounded
  by a fuel argument that counts nested calls; running out is `Fault.outOfFuel`.
* `size_t` is a `Nat` reduced modulo `2^64`.
-/

namespace NQueens

/-! ## Machine arithmetic -/

/-- Reduction of an integer to the range of a 32-bit `int`. -/
def wrap32 (x : Int) : Int := (x + 2147483648) % 4294967296 - 2147483648

/-- The `abs` of `<cstdlib>` on `int`. -/
def absInt (x : Int) : Int := wrap32 (if x < 0 then -x else x)

/-- Reduction of a natural number to the range of a 64-bit `size_t`. -/
def wrapSize (x : Nat) : Nat := x % 18446744073709551616

/-! ## Vector access -/

/-- The ways a run can fail. -/
inductive Fault where
  /-- An access `v[i]` outside the bounds of the vector. -/
  | outOfRange
  /-- The bound on the depth of nested calls is used up. -/
  | outOfFuel
  /-- The exception `std::length_error`, thrown by `vector::assign` for a count above
  `max_size()`. -/
  | lengthError
  /-- The exception `std::invalid_argument`, the error class the specification names
  for a negative board size; no statement of `Application.cpp` throws it. -/
  | invalidArgument
  deriving DecidableEq

/-- The read `v[i]` with an `int` index. -/
def vecGet (v : List Int) (i : Int) : Option Int :=
  if 0 ≤ i then v[i.toNat]? else none

/-- The write `v[i] = x` with an `int` index. -/
def vecSet (v : List Int) (i : Int) (x : Int) : Option (List Int) :=
  if 0 ≤ i ∧ i.toNat < v.length then some (v.set i.toNat x) else none

/-- The call `v.assign(count, value)` with an `int` count.  The parameter is a `size_t`:
a negative count converts to `2^64 + count`, at least `2^64 - 2^31`, which is above
`max_size()` of every vector, and the call throws `std::length_error`.  A count from 0
to `INT_MAX` is unchanged by the conversion and the vector becomes `count` copies of
`value`. -/
def vecAssign (count : Int) (value : Int) : Except Fault (List Int) :=
  if count < 0 then .error .lengthError else .ok (List.replicate count.toNat value)

deriving instance DecidableEq for Except

/-! ## The search (lines 15-36) -/

/-- The result of a call: the buffer and the output list as the call leaves them. -/
abbrev Outcome := Except Fault (List Int × List (List Int))

/-- The inner loop of lines 25-31, `for (int r = 0; r < row; r++)`, entered at
counter `r` with `k` iterations left.  The value is the flag `ok` after the loop. -/
def checkRows (row c : Int) (cols : List Int) : Nat → Int → Except Fault Bool
  | 0, _ => .ok true
  | k + 1, r =>
    match vecGet cols r with
    | none => .error .outOfRange
    | some v =>
      if v = c ∨ absInt (wrap32 (r - row)) = absInt (wrap32 (v - c)) then .ok false
      else checkRows row c cols k (r + 1)

/-- The column loop of lines 23-35, `for (int c = 0; c < N; c++)`, entered at
counter `c` with `k` iterations left.  `recurse` is the nested call of line 34,
applied to `row + 1`, the buffer and the output list. -/
def tryColumns (recurse : Int → List Int → List (List Int) → Outcome) (row : Int) :
    Nat → Int → List Int → List (List Int) → Outcome
  | 0, _, cols, solutions => .ok (cols, solutions)
  | k + 1, c, cols, solutions =>
    match checkRows row c cols row.toNat 0 with
    | .error e => .error e
    | .ok false => tryColumns recurse row k (c + 1) cols solutions
    | .ok true =>
      match vecSet cols row c with
      | none => .error .outOfRange
      | some cols1 =>
        match recurse (row + 1) cols1 solutions with
        | .error e => .error e
        | .ok (cols2, solutions2) => tryColumns recurse row k (c + 1) cols2 solutions2

/-- The function `solveNQueens(N, row, cols, solutions)`; the first argument bounds the
depth of nested calls. -/
def solveNQueens : Nat → Int → Int → List Int → List (List Int) → Outcome
  | 0, _, _, _, _ => .error .outOfFuel
  | fuel + 1, N, row, cols, solutions =>
    if row = N then .ok (cols, solutions ++ [cols])
    else
      tryColumns (fun row1 cols1 solutions1 => solveNQueens fuel N row1 cols1 solutions1)
        row N.toNat 0 cols solutions

/-- The run the specification calls `enumerate(N)`, as lines 113-115 perform it: an empty
output list, `cols.assign(N, -1)`, then `solveNQueens(N, 0, cols, solutions)`; the value
is the output list.  The fuel `N + 1` is the number of nested calls the search makes. -/
def enumerate (N : Int) : Except Fault (List (List Int)) :=
  match vecAssign N (-1) with
  | .error e => .error e
  | .ok cols =>
    match solveNQueens (N.toNat + 1) N 0 cols [] with
    | .error e => .error e
    | .ok (_, solutions) => .ok solutions

/-! ## The variant that undoes the assignment -/

/-- The column loop of the variant described in the design notes: as `tryColumns`, but
the entry `cols[row]` is saved before line 33 and written back after the nested call. -/
def tryColumnsRestore (recurse : Int → List Int → List (List Int) → Outcome) (row : Int) :
    Nat → Int → List Int → List (List Int) → Outcome
  | 0, _, cols, solutions => .ok (cols, solutions)
  | k + 1, c, cols, solutions =>
    match checkRows row c cols row.toNat 0 with
    | .error e => .error e
    | .ok false => tryColumnsRestore recurse row k (c + 1) cols solutions
    | .ok true =>
      match vecGet cols row with
      | none => .error .outOfRange
      | some saved =>
        match vecSet cols row c with
        | none => .error .outOfRange
        | some cols1 =>
          match recurse (row + 1) cols1 solutions with
          | .error e => .error e
          | .ok (cols2, solutions2) =>
            match vecSet cols2 row saved with
            | none => .error .outOfRange
            | some cols3 => tryColumnsRestore recurse row k (c + 1) cols3 solutions2

/-- The search with an owned-and-restored buffer: `solveNQueens` with the column loop
replaced by `tryColumnsRestore`. -/
def solveNQueensRestore : Nat → Int → Int → List Int → List (List Int) → Outcome
  | 0, _, _, _, _ => .error .outOfFuel
  | fuel + 1, N, row, cols, solutions =>
    if row = N then .ok (cols, solutions ++ [cols])
    else
      tryColumnsRestore
        (fun row1 cols1 solutions1 => solveNQueensRestore fuel N row1 cols1 solutions1)
        row N.toNat 0 cols solutions

/-! ## The main loop (lines 96-140) -/

/-- The variables of `main` that the solution list and the playback index live in. -/
structure AppState where
  /-- The list `solutions`. -/
  solutions : List (List Int)
  /-- The buffer `cols`. -/
  cols : List Int
  /-- The index `current`, a `size_t`. -/
  current : Nat
  deriving DecidableEq

/-- The body of the `Compute Solutions` branch, lines 113-116, for the value `N` of the
slider variable.  An exception thrown on the way is not caught anywhere in `main`; the
run ends with it. -/
def computeSolutions (N : Int) (st : AppState) : Except Fault AppState :=
  -- solutions.clear();
  let st1 : AppState := ⟨[], st.cols, st.current⟩
  -- cols.assign(N, -1);
  match vecAssign N (-1) with
  | .error e => .error e
  | .ok cols2 =>
    let st2 : AppState := ⟨st1.solutions, cols2, st1.current⟩
    -- solveNQueens(N, 0, cols, solutions);
    match solveNQueens (N.toNat + 1) N 0 st2.cols st2.solutions with
    | .error e => .error e
    | .ok (cols3, solutions3) =>
      -- current = 0;
      .ok ⟨solutions3, cols3, 0⟩

/-- The value of `solutions.size()`. -/
def solutionsSize (st : AppState) : Nat := wrapSize st.solutions.length

/-- The `Prev` branch, lines 121-123, taken when the button is pressed; subtracting 1
from a `size_t` adds `2^64 - 1` modulo `2^64`. -/
def prevStep (st : AppState) : AppState :=
  if st.solutions.isEmpty then st
  else
    ⟨st.solutions, st.cols,
      wrapSize (wrapSize (st.current + solutionsSize st) + 18446744073709551615)
        % solutionsSize st⟩

/-- The `Next` branch, lines 125-127, taken when the button is pressed. -/
def nextStep (st : AppState) : AppState :=
  if st.solutions.isEmpty then st
  else ⟨st.solutions, st.cols, wrapSize (st.current + 1) % solutionsSize st⟩

/-- The auto-advance block, lines 133-140; `due` stands for the test `dt >= speed`. -/
def autoAdvance (autoPlay due : Bool) (st : AppState) : AppState :=
  if autoPlay && !st.solutions.isEmpty then
    if due then ⟨st.solutions, st.cols, wrapSize (st.current + 1) % solutionsSize st⟩ else st
  else st

/-! ## Placements and the order on them -/

/-- No two queens of `p` share a column or a diagonal: for rows `r1 ≠ r2`,
`p[r1] ≠ p[r2]` and `|r1 - r2| ≠ |p[r1] - p[r2]|`. -/
def NonAttacking (p : List Int) : Prop :=
  ∀ (r1 : Nat) (h1 : r1 < p.length) (r2 : Nat) (h2 : r2 < p.length), r1 ≠ r2 →
    p[r1] ≠ p[r2] ∧ |(r1 : Int) - (r2 : Int)| ≠ |p[r1] - p[r2]|

instance (p : List Int) : Decidable (NonAttacking p) := by
  unfold NonAttacking; infer_instance

/-- A placement for board size `N`: one column in `0..N-1` for each of the `N` rows,
no two queens attacking each other. -/
def IsPlacement (N : Int) (p : List Int) : Prop :=
  (p.length : Int) = N ∧ (∀ c ∈ p, 0 ≤ c ∧ c < N) ∧ NonAttacking p

instance (N : Int) (p : List Int) : Decidable (IsPlacement N p) := by
  unfold IsPlacement; infer_instance

/-- Every entry of the list is a column of the board. -/
def InBoard (n : Nat) (p : List Int) : Prop := ∀ c ∈ p, 0 ≤ c ∧ c < (n : Int)

/-- The strict lexicographic order on column vectors, row 0 most significant. -/
def lexLt : List Int → List Int → Bool
  | [], [] => false
  | [], _ :: _ => true
  | _ :: _, [] => false
  | a :: as, b :: bs => decide (a < b) || (decide (a = b) && lexLt as bs)

/-! ## The search as a list function -/

/-- The test of lines 24-32 for column `c` in row `pre.length`, read off the rows
already placed: `true` when no row of `pre` makes the condition of lines 26-27 hold. -/
def admits (pre : List Int) (c : Int) : Bool :=
  (List.range' 0 pre.length).all fun r =>
    !decide (pre.getD r 0 = c ∨
      absInt (wrap32 ((r : Int) - (pre.length : Int))) = absInt (wrap32 (pre.getD r 0 - c)))

/-- The placements the search appends below a node: the rows placed so far are `pre`,
`m` rows are left, columns are tried in the order `0, 1, .., n-1`. -/
def completions (n : Nat) : Nat → List Int → List (List Int)
  | 0, pre => [pre]
  | m + 1, pre =>
    (List.range' 0 n).flatMap fun c =>
      if admits pre (c : Int) then completions n m (pre ++ [(c : Int)]) else []

/-! ## Counting on natural numbers

The three functions below recompute the number of placements on natural numbers; they
are written with the recursors of `Nat` and `List` so that the kernel evaluates them
quickly.  The rows placed so far are kept last row first. -/

/-- The test of lines 24-32 on natural numbers: column `c` against the earlier rows
`rev`, last row first, the first of them `d` rows away. -/
def admitsNat (c : Nat) (rev : List Nat) : Nat → Bool :=
  List.rec (motive := fun _ => Nat → Bool) (fun _ => true)
    (fun q _ ih d =>
      match Nat.beq q c with
      | true => false
      | false =>
        match Nat.beq (Nat.add q d) c with
        | true => false
        | false =>
          match Nat.beq (Nat.add c d) q with
          | true => false
          | false => ih (Nat.succ d)) rev

/-- The sum `f c + f (c+1) + .. + f (c+k-1)`. -/
def sumCols (f : Nat → Nat) (k : Nat) : Nat → Nat :=
  Nat.rec (motive := fun _ => Nat → Nat) (fun _ => 0)
    (fun _ ih c => Nat.add (f c) (ih (Nat.succ c))) k

/-- The number of placements the search appends below a node with `m` rows left and
the rows `rev` placed, last row first. -/
def countNat (n : Nat) (m : Nat) : List Nat → Nat :=
  Nat.rec (motive := fun _ => List Nat → Nat) (fun _ => 1)
    (fun _ ih rev =>
      sumCols (fun c =>
        match admitsNat c rev 1 with
        | true => ih (c :: rev)
        | false => 0) n 0) m

/-! ## Running the loops -/

theorem vecGet_natCast (cols : List Int) (i : Nat) : vecGet cols (i : Int) = cols[i]? := by
  simp [vecGet]

theorem vecSet_natCast (cols : List Int) (i : Nat) (x : Int) (h : i < cols.length) :
    vecSet cols (i : Int) x = some (cols.set i x) := by
  simp [vecSet, h]

/-- The inner loop from row `r` on reads rows `r .. r+k-1` and reports whether none of
them makes the condition of lines 26-27 hold. -/
theorem checkRows_eq (row c : Int) (cols : List Int) :
    ∀ (k r : Nat), r + k ≤ cols.length →
      checkRows row c cols k (r : Int) = .ok ((List.range' r k).all fun i =>
        !decide (cols.getD i 0 = c ∨
          absInt (wrap32 ((i : Int) - row)) = absInt (wrap32 (cols.getD i 0 - c))))
  | 0, _, _ => by simp [checkRows]
  | k + 1, r, h => by
    have hr : r < cols.length := by omega
    have ih := checkRows_eq row c cols k (r + 1) (by omega)
    have hget : cols[r]? = some cols[r] := List.getElem?_eq_getElem hr
    rw [checkRows, vecGet_natCast, hget]
    simp only [List.range'_succ, List.all_cons, List.getD_eq_getElem?_getD, hget,
      Option.getD_some]
    by_cases hc : cols[r] = c ∨
        absInt (wrap32 ((r : Int) - row)) = absInt (wrap32 (cols[r] - c))
    · simp [hc]
    · push_cast at ih
      simp only [hc, if_false, ih, decide_False, Bool.not_false, Bool.true_and,
        List.getD_eq_getElem?_getD]

/-- The flag computed by lines 24-32 depends only on the rows below `row`. -/
theorem checkRows_admits (row : Nat) (c : Int) (cols : List Int) (h : row ≤ cols.length) :
    checkRows (row : Int) c cols row 0 = .ok (admits (cols.take row) c) := by
  have := checkRows_eq (row : Int) c cols row 0 (by omega)
  rw [show ((0 : Nat) : Int) = 0 from rfl] at this
  rw [this, admits]
  have hlen : (cols.take row).length = row := by simp [h]
  rw [hlen]
  congr 1
  rw [Bool.eq_iff_iff, List.all_eq_true, List.all_eq_true]
  refine forall_congr' fun i => forall_congr' fun hi => ?_
  have hi2 : i < row := by simpa using hi
  simp [List.getElem?_take, hi2]

theorem take_set_same (cols : List Int) (row : Nat) (c : Int) :
    (cols.set row c).take row = cols.take row := by
  apply List.ext_getElem?
  intro i
  rw [List.getElem?_take, List.getElem?_take]
  split
  · rw [List.getElem?_set_ne (by omega)]
  · rfl

theorem take_set_self (cols : List Int) (row : Nat) (c : Int) (h : row < cols.length) :
    (cols.set row c).take (row + 1) = cols.take row ++ [c] := by
  rw [List.take_succ, take_set_same]
  simp [List.getElem?_set, h]

theorem take_of_take_succ {a : List Int} {pre : List Int} {row : Nat} {c : Int}
    (hpre : pre.length = row) (h : a.take (row + 1) = pre ++ [c]) : a.take row = pre := by
  have := congrArg (List.take row) h
  rw [List.take_take, Nat.min_eq_left (Nat.le_succ row), List.take_left' hpre] at this
  exact this

/-- One run of the column loop of `solveNQueens`, given what the nested call does. -/
theorem tryColumns_run (n m row : Nat)
    (recurse : Int → List Int → List (List Int) → Outcome) (hrow : row < n)
    (hrec : ∀ (cols1 : List Int) (S1 : List (List Int)), cols1.length = n →
      ∃ cols2, recurse ((row : Int) + 1) cols1 S1
          = .ok (cols2, S1 ++ completions n m (cols1.take (row + 1)))
        ∧ cols2.length = n ∧ cols2.take (row + 1) = cols1.take (row + 1)) :
    ∀ (k c : Nat) (cols : List Int) (S : List (List Int)), cols.length = n →
      ∃ cols', tryColumns recurse (row : Int) k (c : Int) cols S
          = .ok (cols', S ++ (List.range' c k).flatMap fun c =>
              if admits (cols.take row) (c : Int)
              then completions n m (cols.take row ++ [(c : Int)]) else [])
        ∧ cols'.length = n ∧ cols'.take row = cols.take row
  | 0, c, cols, S, hlen => ⟨cols, by simp [tryColumns], hlen, rfl⟩
  | k + 1, c, cols, S, hlen => by
    have hchk := checkRows_admits row (c : Int) cols (by omega)
    rw [tryColumns, Int.toNat_ofNat, hchk]
    simp only [List.range'_succ, List.flatMap_cons]
    cases hadm : admits (cols.take row) (c : Int) with
    | false =>
      obtain ⟨cols', h1, h2, h3⟩ := tryColumns_run n m row recurse hrow hrec k (c + 1) cols S hlen
      push_cast at h1
      exact ⟨cols', by simpa using h1, h2, h3⟩
    | true =>
      rw [vecSet_natCast cols row (c : Int) (by omega)]
      obtain ⟨cols2, hr1, hr2, hr3⟩ := hrec (cols.set row (c : Int)) S (by simpa using hlen)
      rw [take_set_self cols row (c : Int) (by omega)] at hr1 hr3
      have hpre : cols2.take row = cols.take row :=
        take_of_take_succ (by simp; omega) hr3
      obtain ⟨cols', h1, h2, h3⟩ := tryColumns_run n m row recurse hrow hrec k (c + 1) cols2
        (S ++ completions n m (cols.take row ++ [(c : Int)])) hr2
      push_cast at h1
      rw [hpre] at h1 h3
      exact ⟨cols', by simp only [hr1, h1, if_true, List.append_assoc], h2, h3⟩

/-- A call of `solveNQueens` at row `row` with `m` rows left and at least `m + 1` units of
fuel returns; it appends the completions of the rows below `row` and leaves those rows
of the buffer as they were. -/
theorem solveNQueens_run (n : Nat) :
    ∀ (m row fuel : Nat) (cols : List Int) (S : List (List Int)),
      row + m = n → cols.length = n → m + 1 ≤ fuel →
      ∃ cols', solveNQueens fuel (n : Int) (row : Int) cols S
          = .ok (cols', S ++ completions n m (cols.take row))
        ∧ cols'.length = n ∧ cols'.take row = cols.take row
  | 0, row, fuel, cols, S, hrow, hlen, hfuel => by
    obtain ⟨f, rfl⟩ : ∃ f, fuel = f + 1 := ⟨fuel - 1, by omega⟩
    have hrn : row = n := by omega
    subst hrn
    exact ⟨cols, by simp [solveNQueens, completions, ← hlen], hlen, rfl⟩
  | m + 1, row, fuel, cols, S, hrow, hlen, hfuel => by
    obtain ⟨f, rfl⟩ : ∃ f, fuel = f + 1 := ⟨fuel - 1, by omega⟩
    have hne : ¬ ((row : Int) = (n : Int)) := by omega
    rw [solveNQueens, if_neg hne, Int.toNat_ofNat]
    have hrec : ∀ (cols1 : List Int) (S1 : List (List Int)), cols1.length = n →
        ∃ cols2, solveNQueens f (n : Int) ((row : Int) + 1) cols1 S1
            = .ok (cols2, S1 ++ completions n m (cols1.take (row + 1)))
          ∧ cols2.length = n ∧ cols2.take (row + 1) = cols1.take (row + 1) := by
      intro cols1 S1 h1
      have := solveNQueens_run n m (row + 1) f cols1 S1 (by omega) h1 (by omega)
      push_cast at this
      exact this
    have := tryColumns_run n m row
      (fun row1 cols1 solutions1 => solveNQueens f (n : Int) row1 cols1 solutions1)
      (by omega) hrec n 0 cols S hlen
    simpa [completions] using this

/-- One run of the column loop of the restoring variant, given what the nested call
does. -/
theorem tryColumnsRestore_run (n m row : Nat)
    (recurse : Int → List Int → List (List Int) → Outcome) (hrow : row < n)
    (hrec : ∀ (cols1 : List Int) (S1 : List (List Int)), cols1.length = n →
      ∃ cols2, recurse ((row : Int) + 1) cols1 S1
          = .ok (cols2, S1 ++ completions n m (cols1.take (row + 1)))
        ∧ cols2.length = n ∧ cols2.take (row + 1) = cols1.take (row + 1)) :
    ∀ (k c : Nat) (cols : List Int) (S : List (List Int)), cols.length = n →
      ∃ cols', tryColumnsRestore recurse (row : Int) k (c : Int) cols S
          = .ok (cols', S ++ (List.range' c k).flatMap fun c =>
              if admits (cols.take row) (c : Int)
              then completions n m (cols.take row ++ [(c : Int)]) else [])
        ∧ cols'.length = n ∧ cols'.take row = cols.take row
  | 0, c, cols, S, hlen => ⟨cols, by simp [tryColumnsRestore], hlen, rfl⟩
  | k + 1, c, cols, S, hlen => by
    have hchk := checkRows_admits row (c : Int) cols (by omega)
    rw [tryColumnsRestore, Int.toNat_ofNat, hchk]
    simp only [List.range'_succ, List.flatMap_cons]
    cases hadm : admits (cols.take row) (c : Int) with
    | false =>
      obtain ⟨cols', h1, h2, h3⟩ :=
        tryColumnsRestore_run n m row recurse hrow hrec k (c + 1) cols S hlen
      push_cast at h1
      exact ⟨cols', by simpa using h1, h2, h3⟩
    | true =>
      have hget : cols[row]? = some cols[row] := List.getElem?_eq_getElem (by omega)
      rw [vecGet_natCast, hget, vecSet_natCast cols row (c : Int) (by omega)]
      obtain ⟨cols2, hr1, hr2, hr3⟩ := hrec (cols.set row (c : Int)) S (by simpa using hlen)
      rw [take_set_self cols row (c : Int) (by omega)] at hr1 hr3
      have hpre : cols2.take row = cols.take row :=
        take_of_take_succ (by simp; omega) hr3
      obtain ⟨cols', h1, h2, h3⟩ := tryColumnsRestore_run n m row recurse hrow hrec k (c + 1)
        (cols2.set row cols[row])
        (S ++ completions n m (cols.take row ++ [(c : Int)])) (by simpa using hr2)
      push_cast at h1
      rw [take_set_same, hpre] at h1 h3
      exact ⟨cols', by
        simp only [hr1, vecSet_natCast cols2 row cols[row] (by omega), h1, if_true,
          List.append_assoc], h2, h3⟩

/-- A call of the restoring variant with enough fuel returns and appends the same
completions as `solveNQueens`. -/
theorem solveNQueensRestore_run (n : Nat) :
    ∀ (m row fuel : Nat) (cols : List Int) (S : List (List Int)),
      row + m = n → cols.length = n → m + 1 ≤ fuel →
      ∃ cols', solveNQueensRestore fuel (n : Int) (row : Int) cols S
          = .ok (cols', S ++ completions n m (cols.take row))
        ∧ cols'.length = n ∧ cols'.take row = cols.take row
  | 0, row, fuel, cols, S, hrow, hlen, hfuel => by
    obtain ⟨f, rfl⟩ : ∃ f, fuel = f + 1 := ⟨fuel - 1, by omega⟩
    have hrn : row = n := by omega
    subst hrn
    exact ⟨cols, by simp [solveNQueensRestore, completions, ← hlen], hlen, rfl⟩
  | m + 1, row, fuel, cols, S, hrow, hlen, hfuel => by
    obtain ⟨f, rfl⟩ : ∃ f, fuel = f + 1 := ⟨fuel - 1, by omega⟩
    have hne : ¬ ((row : Int) = (n : Int)) := by omega
    rw [solveNQueensRestore, if_neg hne, Int.toNat_ofNat]
    have hrec : ∀ (cols1 : List Int) (S1 : List (List Int)), cols1.length = n →
        ∃ cols2, solveNQueensRestore f (n : Int) ((row : Int) + 1) cols1 S1
            = .ok (cols2, S1 ++ completions n m (cols1.take (row + 1)))
          ∧ cols2.length = n ∧ cols2.take (row + 1) = cols1.take (row + 1) := by
      intro cols1 S1 h1
      have := solveNQueensRestore_run n m (row + 1) f cols1 S1 (by omega) h1 (by omega)
      push_cast at this
      exact this
    have := tryColumnsRestore_run n m row
      (fun row1 cols1 solutions1 => solveNQueensRestore f (n : Int) row1 cols1 solutions1)
      (by omega) hrec n 0 cols S hlen
    simpa [completions] using this

theorem vecAssign_natCast (n : Nat) (value : Int) :
    vecAssign (n : Int) value = .ok (List.replicate n value) := by
  have h : ¬ ((n : Int) < 0) := by omega
  rw [vecAssign, if_neg h, Int.toNat_ofNat]

/-- The run `enumerate(N)` returns the completions of the empty prefix. -/
theorem enumerate_eq (n : Nat) : enumerate (n : Int) = .ok (completions n n []) := by
  obtain ⟨cols', h, -, -⟩ := solveNQueens_run n n 0 (n + 1) (List.replicate n (-1)) []
    (by omega) (by simp) (by omega)
  simp only [enumerate, vecAssign_natCast, Int.toNat_ofNat]
  rw [show ((0 : Nat) : Int) = 0 from rfl] at h
  rw [h]
  simp

/-! ## The line-27 test on values within the board -/

theorem wrap32_of_range {x : Int} (h1 : -2147483648 ≤ x) (h2 : x < 2147483648) :
    wrap32 x = x := by
  unfold wrap32; omega

theorem absInt_of_range {x : Int} (h1 : -2147483648 < x) (h2 : x < 2147483648) :
    absInt x = |x| := by
  unfold absInt
  split
  · rw [wrap32_of_range (by omega) (by omega), abs_of_neg (by assumption)]
  · rw [wrap32_of_range (by omega) (by omega), abs_of_nonneg (by omega)]

/-- On a board whose size fits an `int`, the test of lines 24-32 is the test on
mathematical integers. -/
theorem admits_iff (n : Nat) (hn : (n : Int) < 2147483648) (pre : List Int) (c : Int)
    (hlen : pre.length ≤ n) (hpre : InBoard n pre) (hc : 0 ≤ c ∧ c < (n : Int)) :
    admits pre c = true ↔
      ∀ (i : Nat) (v : Int), pre[i]? = some v →
        v ≠ c ∧ |(i : Int) - (pre.length : Int)| ≠ |v - c| := by
  unfold admits
  rw [List.all_eq_true]
  constructor
  · intro h i v hv
    have hi : i < pre.length := by
      rcases Nat.lt_or_ge i pre.length with h | h
      · exact h
      · rw [List.getElem?_eq_none h] at hv; cases hv
    have hvb := hpre v (List.getElem?_mem hv)
    have := h i (by simp [List.mem_range', hi])
    simp only [List.getD_eq_getElem?_getD, hv, Option.getD_some, Bool.not_eq_true',
      decide_eq_false_iff_not, not_or] at this
    rw [wrap32_of_range (by omega) (by omega), wrap32_of_range (by omega) (by omega),
      absInt_of_range (by omega) (by omega), absInt_of_range (by omega) (by omega)] at this
    exact this
  · intro h i hi
    have hi2 : i < pre.length := by simpa [List.mem_range'] using hi
    have hv : pre[i]? = some pre[i] := List.getElem?_eq_getElem hi2
    have hvb := hpre _ (List.getElem?_mem hv)
    have := h i _ hv
    simp only [List.getD_eq_getElem?_getD, hv, Option.getD_some, Bool.not_eq_true',
      decide_eq_false_iff_not, not_or]
    rw [wrap32_of_range (by omega) (by omega), wrap32_of_range (by omega) (by omega),
      absInt_of_range (by omega) (by omega), absInt_of_range (by omega) (by omega)]
    exact this

/-! ## Non-attacking lists -/

theorem nonAttacking_iff (p : List Int) :
    NonAttacking p ↔ ∀ (r1 r2 : Nat) (c1 c2 : Int), p[r1]? = some c1 → p[r2]? = some c2 →
      r1 ≠ r2 → c1 ≠ c2 ∧ |(r1 : Int) - (r2 : Int)| ≠ |c1 - c2| := by
  constructor
  · intro h r1 r2 c1 c2 h1 h2 hne
    obtain ⟨hr1, rfl⟩ := List.getElem?_eq_some_iff.mp h1
    obtain ⟨hr2, rfl⟩ := List.getElem?_eq_some_iff.mp h2
    exact h r1 hr1 r2 hr2 hne
  · intro h r1 hr1 r2 hr2 hne
    exact h r1 r2 _ _ (List.getElem?_eq_getElem hr1) (List.getElem?_eq_getElem hr2) hne

theorem getElem?_concat_some (pre : List Int) (c : Int) (r : Nat) (v : Int) :
    (pre ++ [c])[r]? = some v ↔ pre[r]? = some v ∨ (r = pre.length ∧ v = c) := by
  rcases Nat.lt_trichotomy r pre.length with h | h | h
  · rw [List.getElem?_append_left h]
    constructor
    · exact Or.inl
    · rintro (h1 | ⟨h1, -⟩)
      · exact h1
      · omega
  · subst h
    simp [eq_comm]
  · have h1 : (pre ++ [c])[r]? = none := List.getElem?_eq_none (by simp; omega)
    have h2 : pre[r]? = none := List.getElem?_eq_none (by omega)
    rw [h1, h2]
    constructor
    · intro h; cases h
    · rintro (h | ⟨h3, -⟩)
      · cases h
      · omega

/-- Adding a row keeps the list non-attacking exactly when the new queen attacks none
of the earlier ones. -/
theorem nonAttacking_concat (pre : List Int) (c : Int) :
    NonAttacking (pre ++ [c]) ↔ NonAttacking pre ∧
      ∀ (i : Nat) (v : Int), pre[i]? = some v →
        v ≠ c ∧ |(i : Int) - (pre.length : Int)| ≠ |v - c| := by
  rw [nonAttacking_iff, nonAttacking_iff]
  constructor
  · intro h
    refine ⟨fun r1 r2 c1 c2 h1 h2 hne => ?_, fun i v hv => ?_⟩
    · exact h r1 r2 c1 c2 ((getElem?_concat_some _ _ _ _).mpr (Or.inl h1))
        ((getElem?_concat_some _ _ _ _).mpr (Or.inl h2)) hne
    · have hi : i < pre.length := (List.getElem?_eq_some_iff.mp hv).1
      exact h i pre.length v c ((getElem?_concat_some _ _ _ _).mpr (Or.inl hv))
        ((getElem?_concat_some _ _ _ _).mpr (Or.inr ⟨rfl, rfl⟩)) (by omega)
  · rintro ⟨h, hnew⟩ r1 r2 c1 c2 h1 h2 hne
    rcases (getElem?_concat_some _ _ _ _).mp h1 with g1 | ⟨e1, e1c⟩
    · rcases (getElem?_concat_some _ _ _ _).mp h2 with g2 | ⟨e2, e2c⟩
      · exact h r1 r2 c1 c2 g1 g2 hne
      · rw [e2, e2c]
        exact hnew r1 c1 g1
    · rcases (getElem?_concat_some _ _ _ _).mp h2 with g2 | ⟨e2, -⟩
      · have := hnew r2 c2 g2
        rw [e1, e1c]
        refine ⟨fun e => this.1 e.symm, ?_⟩
        rw [abs_sub_comm, abs_sub_comm c]
        exact this.2
      · exact absurd (e1.trans e2.symm) hne

/-! ## What the search appends -/

theorem mem_completions_succ {n m : Nat} {pre p : List Int} :
    p ∈ completions n (m + 1) pre ↔
      ∃ c : Nat, c < n ∧ admits pre (c : Int) = true ∧
        p ∈ completions n m (pre ++ [(c : Int)]) := by
  simp only [completions, List.mem_flatMap, List.mem_range']
  constructor
  · rintro ⟨c, ⟨i, hi, rfl⟩, hp⟩
    by_cases ha : admits pre ((0 + 1 * i : Nat) : Int) = true
    · rw [if_pos ha] at hp
      exact ⟨0 + 1 * i, by omega, ha, hp⟩
    · rw [if_neg ha] at hp
      cases hp
  · rintro ⟨c, hc, ha, hp⟩
    exact ⟨c, ⟨c, hc, by omega⟩, by rw [if_pos ha]; exact hp⟩

/-- Every appended vector extends the rows placed so far. -/
theorem completions_extends (n : Nat) :
    ∀ (m : Nat) (pre p : List Int), p ∈ completions n m pre → pre <+: p
  | 0, pre, p, h => by
    simp only [completions, List.mem_singleton] at h
    subst h
    exact List.prefix_refl _
  | m + 1, pre, p, h => by
    obtain ⟨c, -, -, hp⟩ := mem_completions_succ.mp h
    exact (List.prefix_append pre [(c : Int)]).trans (completions_extends n m _ p hp)

/-- Every appended vector is a full non-attacking assignment of columns of the board. -/
theorem completions_sound (n : Nat) (hn : (n : Int) < 2147483648) :
    ∀ (m : Nat) (pre p : List Int), pre.length + m = n → InBoard n pre → NonAttacking pre →
      p ∈ completions n m pre → p.length = n ∧ InBoard n p ∧ NonAttacking p
  | 0, pre, p, hlen, hb, hna, h => by
    simp only [completions, List.mem_singleton] at h
    subst h
    exact ⟨by omega, hb, hna⟩
  | m + 1, pre, p, hlen, hb, hna, h => by
    obtain ⟨c, hc, ha, hp⟩ := mem_completions_succ.mp h
    have hcb : (0 : Int) ≤ (c : Int) ∧ (c : Int) < (n : Int) := ⟨by omega, by omega⟩
    have hadm := (admits_iff n hn pre (c : Int) (by omega) hb hcb).mp ha
    refine completions_sound n hn m (pre ++ [(c : Int)]) p (by simp; omega) ?_
      ((nonAttacking_concat pre (c : Int)).mpr ⟨hna, hadm⟩) hp
    intro v hv
    rcases List.mem_append.mp hv with hv | hv
    · exact hb v hv
    · rw [List.mem_singleton.mp hv]
      exact hcb

theorem inBoard_of_initial {n : Nat} {pre p : List Int} (h : pre <+: p) (hb : InBoard n p) :
    InBoard n pre :=
  fun c hc => hb c (h.subset hc)

theorem nonAttacking_of_initial {pre p : List Int} (h : pre <+: p) (hna : NonAttacking p) :
    NonAttacking pre := by
  rw [nonAttacking_iff] at hna ⊢
  obtain ⟨t, rfl⟩ := h
  intro r1 r2 c1 c2 h1 h2 hne
  have g1 : (pre ++ t)[r1]? = some c1 := by
    rw [List.getElem?_append_left (List.getElem?_eq_some_iff.mp h1).1]; exact h1
  have g2 : (pre ++ t)[r2]? = some c2 := by
    rw [List.getElem?_append_left (List.getElem?_eq_some_iff.mp h2).1]; exact h2
  exact hna r1 r2 c1 c2 g1 g2 hne

/-- Every full non-attacking assignment that extends the rows placed so far is
appended. -/
theorem completions_complete (n : Nat) (hn : (n : Int) < 2147483648) :
    ∀ (m : Nat) (pre p : List Int), pre.length + m = n → pre <+: p → p.length = n →
      InBoard n p → NonAttacking p → p ∈ completions n m pre
  | 0, pre, p, hlen, hpre, hpl, hb, hna => by
    have : pre = p := hpre.eq_of_length (by omega)
    simp [completions, this]
  | m + 1, pre, p, hlen, hpre, hpl, hb, hna => by
    obtain ⟨t, ht⟩ := hpre
    cases t with
    | nil =>
      rw [List.append_nil] at ht
      rw [← ht] at hpl
      omega
    | cons c t =>
      have hext : pre ++ [c] <+: p := ⟨t, by rw [← ht]; simp⟩
      have hcb : 0 ≤ c ∧ c < (n : Int) := hb c (hext.subset (by simp))
      have hcn : ((c.toNat : Nat) : Int) = c := Int.toNat_of_nonneg hcb.1
      have hna1 : NonAttacking (pre ++ [c]) := nonAttacking_of_initial hext hna
      have hadm : admits pre c = true :=
        (admits_iff n hn pre c (by omega) (inBoard_of_initial ⟨c :: t, ht⟩ hb) hcb).mpr
          ((nonAttacking_concat pre c).mp hna1).2
      refine mem_completions_succ.mpr ⟨c.toNat, by omega, by rw [hcn]; exact hadm, ?_⟩
      rw [hcn]
      exact completions_complete n hn m (pre ++ [c]) p (by simp; omega) hext hpl hb hna

/-! ## The order of discovery -/

theorem lexLt_irrefl : ∀ p : List Int, lexLt p p = false
  | [] => rfl
  | a :: p => by simp [lexLt, lexLt_irrefl p]

/-- Two vectors that agree on the first rows and differ in the next one are ordered by
that row. -/
theorem lexLt_of_common_rows {a b : Int} (hab : a < b) :
    ∀ (pre x y : List Int), pre ++ [a] <+: x → pre ++ [b] <+: y → lexLt x y = true
  | [], x, y, hx, hy => by
    obtain ⟨t, rfl⟩ := hx
    obtain ⟨u, rfl⟩ := hy
    simp [lexLt, hab]
  | v :: pre, x, y, hx, hy => by
    obtain ⟨t, rfl⟩ := hx
    obtain ⟨u, rfl⟩ := hy
    have := lexLt_of_common_rows hab pre (pre ++ [a] ++ t) (pre ++ [b] ++ u)
      (List.prefix_append _ _) (List.prefix_append _ _)
    show lexLt (v :: (pre ++ [a] ++ t)) (v :: (pre ++ [b] ++ u)) = true
    rw [lexLt, this]
    simp

/-- The appended vectors come out in strictly increasing lexicographic order. -/
theorem completions_sorted (n : Nat) :
    ∀ (m : Nat) (pre : List Int),
      (completions n m pre).Pairwise fun x y => lexLt x y = true
  | 0, pre => by simp [completions]
  | m + 1, pre => by
    rw [completions, List.pairwise_flatMap]
    refine ⟨fun c _ => ?_, ?_⟩
    · split
      · exact completions_sorted n m _
      · exact List.Pairwise.nil
    · refine (List.pairwise_lt_range' 0 n).imp ?_
      intro c1 c2 hlt x hx y hy
      split at hx
      · split at hy
        · exact lexLt_of_common_rows (by exact_mod_cast hlt) pre x y
            (completions_extends n m _ x hx) (completions_extends n m _ y hy)
        · cases hy
      · cases hx

theorem completions_nodup (n m : Nat) (pre : List Int) : (completions n m pre).Nodup := by
  refine (completions_sorted n m pre).imp ?_
  intro x y hxy hEq
  rw [hEq, lexLt_irrefl] at hxy
  cases hxy

theorem count_eq_one_of_nodup_of_mem :
    ∀ (l : List (List Int)) (p : List Int), l.Nodup → p ∈ l → l.count p = 1
  | [], _, _, hmem => by cases hmem
  | a :: l, p, hnd, hmem => by
    rw [List.nodup_cons] at hnd
    rw [List.count_cons]
    by_cases h : a = p
    · subst h
      rw [List.count_eq_zero_of_not_mem hnd.1]
      simp
    · have hp : p ∈ l := by
        rcases List.mem_cons.mp hmem with e | e
        · exact absurd e.symm h
        · exact e
      rw [count_eq_one_of_nodup_of_mem l p hnd.2 hp]
      simp [h]

/-! ## The count of solutions -/

theorem admitsNat_cons (c q : Nat) (qs : List Nat) (d : Nat) :
    admitsNat c (q :: qs) d
      = (if q = c then false else if q + d = c then false else if c + d = q then false
          else admitsNat c qs (d + 1)) := by
  show (match Nat.beq q c with
    | true => false
    | false =>
      match Nat.beq (Nat.add q d) c with
      | true => false
      | false =>
        match Nat.beq (Nat.add c d) q with
        | true => false
        | false => admitsNat c qs (Nat.succ d)) = _
  cases h1 : Nat.beq q c with
  | true => rw [if_pos (Nat.eq_of_beq_eq_true h1)]
  | false =>
    rw [if_neg (Nat.ne_of_beq_eq_false h1)]
    cases h2 : Nat.beq (Nat.add q d) c with
    | true =>
      have e2 : q + d = c := Nat.eq_of_beq_eq_true h2
      rw [if_pos e2]
    | false =>
      have e2 : ¬ (q + d = c) := Nat.ne_of_beq_eq_false h2
      rw [if_neg e2]
      cases h3 : Nat.beq (Nat.add c d) q with
      | true =>
        have e3 : c + d = q := Nat.eq_of_beq_eq_true h3
        rw [if_pos e3]
      | false =>
        have e3 : ¬ (c + d = q) := Nat.ne_of_beq_eq_false h3
        rw [if_neg e3]

theorem admitsNat_iff (c : Nat) :
    ∀ (rev : List Nat) (d : Nat), admitsNat c rev d = true ↔
      ∀ (j q : Nat), rev[j]? = some q → q ≠ c ∧ q + (d + j) ≠ c ∧ c + (d + j) ≠ q
  | [], d => by
    constructor
    · intro _ j q hq
      simp at hq
    · intro _
      rfl
  | q0 :: qs, d => by
    rw [admitsNat_cons]
    constructor
    · intro h j q hq
      split at h
      · cases h
      · split at h
        · cases h
        · split at h
          · cases h
          · cases j with
            | zero =>
              simp only [List.getElem?_cons_zero, Option.some.injEq] at hq
              subst hq
              exact ⟨by assumption, by assumption, by assumption⟩
            | succ j =>
              simp only [List.getElem?_cons_succ] at hq
              have := (admitsNat_iff c qs (d + 1)).mp h j q hq
              rw [show d + 1 + j = d + (j + 1) by omega] at this
              exact this
    · intro h
      have h0 := h 0 q0 (by simp)
      rw [Nat.add_zero] at h0
      rw [if_neg h0.1, if_neg h0.2.1, if_neg h0.2.2]
      refine (admitsNat_iff c qs (d + 1)).mpr fun j q hq => ?_
      have := h (j + 1) q (by simpa using hq)
      rw [show d + (j + 1) = d + 1 + j by omega] at this
      exact this

/-- On a board whose size fits an `int`, the test on natural numbers is the test of
lines 24-32. -/
theorem admits_eq_admitsNat (n : Nat) (hn : (n : Int) < 2147483648) (rev : List Nat)
    (c : Nat) (hlen : rev.length ≤ n) (hrev : ∀ q ∈ rev, q < n) (hc : c < n) :
    admits (rev.reverse.map (Nat.cast : Nat → Int)) (c : Int) = admitsNat c rev 1 := by
  rw [Bool.eq_iff_iff, admitsNat_iff,
    admits_iff n hn _ (c : Int) (by simpa using hlen)
      (by
        intro v hv
        obtain ⟨q, hq, rfl⟩ := List.mem_map.mp hv
        have := hrev q (List.mem_reverse.mp hq)
        omega)
      ⟨by omega, by omega⟩]
  simp only [List.getElem?_map, List.length_map, List.length_reverse, Option.map_eq_some']
  constructor
  · intro h j q hq
    have hj : j < rev.length := (List.getElem?_eq_some_iff.mp hq).1
    have hq2 : rev.reverse[rev.length - 1 - j]? = some q := by
      rw [List.getElem?_reverse (by omega), ← hq]
      congr 1
      omega
    obtain ⟨h1, h2⟩ := h (rev.length - 1 - j) (q : Int) ⟨q, hq2, rfl⟩
    rw [abs_of_nonpos (by omega)] at h2
    refine ⟨fun e => h1 (by rw [e]), fun e => h2 ?_, fun e => h2 ?_⟩
    · rw [abs_of_nonpos (by omega)]; omega
    · rw [abs_of_nonneg (by omega)]; omega
  · rintro h i v ⟨q, hq, rfl⟩
    have hi : i < rev.length := by
      have := (List.getElem?_eq_some_iff.mp hq).1
      simpa using this
    rw [List.getElem?_reverse hi] at hq
    obtain ⟨h1, h2, h3⟩ := h (rev.length - 1 - i) q hq
    refine ⟨fun e => h1 (by exact_mod_cast e), ?_⟩
    rw [abs_of_nonpos (by omega)]
    rcases le_total (q : Int) (c : Int) with hqc | hqc
    · rw [abs_of_nonpos (by omega)]; omega
    · rw [abs_of_nonneg (by omega)]; omega

theorem sumCols_eq (f : Nat → Nat) :
    ∀ (k c : Nat), sumCols f k c = ((List.range' c k).map f).sum
  | 0, _ => rfl
  | k + 1, c => by
    show f c + sumCols f k (c + 1) = _
    rw [sumCols_eq f k (c + 1)]
    simp [List.range'_succ]

theorem countNat_succ (n m : Nat) (rev : List Nat) :
    countNat n (m + 1) rev
      = sumCols (fun c => if admitsNat c rev 1 = true then countNat n m (c :: rev) else 0)
          n 0 := by
  show sumCols (fun c =>
      match admitsNat c rev 1 with
      | true => countNat n m (c :: rev)
      | false => 0) n 0 = _
  congr 1
  funext c
  cases admitsNat c rev 1 <;> rfl

/-- The number of placements appended below a node is the count on natural numbers. -/
theorem length_completions (n : Nat) (hn : (n : Int) < 2147483648) :
    ∀ (m : Nat) (rev : List Nat), rev.length + m = n → (∀ q ∈ rev, q < n) →
      (completions n m (rev.reverse.map (Nat.cast : Nat → Int))).length = countNat n m rev
  | 0, rev, _, _ => by
    show ([rev.reverse.map (Nat.cast : Nat → Int)] : List (List Int)).length = 1
    rfl
  | m + 1, rev, hlen, hrev => by
    rw [completions, countNat_succ, sumCols_eq, List.length_flatMap]
    congr 1
    apply List.map_congr_left
    intro c hc
    have hcn : c < n := by
      simp only [List.mem_range'] at hc
      omega
    rw [Function.comp_apply, admits_eq_admitsNat n hn rev c (by omega) hrev hcn]
    split
    · have := length_completions n hn m (c :: rev) (by simp; omega) (by
        intro q hq
        rcases List.mem_cons.mp hq with h | h
        · rw [h]; exact hcn
        · exact hrev q h)
      simpa using this
    · rfl

/-- The number of solutions `enumerate(N)` returns, for `N` in the range of `int`. -/
theorem enumerate_length (n : Nat) (hn : (n : Int) < 2147483648) :
    (enumerate (n : Int)).map List.length = .ok (countNat n n []) := by
  have := length_completions n hn n [] (by simp) (by simp)
  rw [enumerate_eq]
  simp only [List.reverse_nil, List.map_nil] at this
  simp [Except.map, this]

/-! ## The claims -/

/-- C1 (soundness of the enumerator): for every board size `N` with `0 ≤ N` in the range
of `int`, the run `enumerate(N)` returns, and every vector in the returned list has
length `N`, entries in `0..N-1`, and no two rows sharing a column or a diagonal. -/
theorem enumerate_sound (N : Int) (h0 : 0 ≤ N) (hN : N ≤ 2147483647) :
    ∃ sols, enumerate N = .ok sols ∧ ∀ p ∈ sols, IsPlacement N p := by
  obtain ⟨n, rfl⟩ := Int.eq_ofNat_of_zero_le h0
  refine ⟨completions n n [], enumerate_eq n, fun p hp => ?_⟩
  obtain ⟨h1, h2, h3⟩ := completions_sound n (by omega) n [] p (by simp)
    (fun c hc => by cases hc) (fun r1 h1 => by cases h1) hp
  exact ⟨by omega, h2, h3⟩

theorem enumerate_sound_witness :
    ∃ sols, enumerate 4 = .ok sols ∧ ∀ p ∈ sols, IsPlacement 4 p :=
  enumerate_sound 4 (by decide) (by decide)

/-- C2 (completeness without duplicates): for every board size `N` with `0 ≤ N` in the
range of `int` and every vector `p` of length `N` with entries in `0..N-1` and no two
rows sharing a column or a diagonal, `p` occurs exactly once in the list returned by
`enumerate(N)`. -/
theorem enumerate_complete (N : Int) (h0 : 0 ≤ N) (hN : N ≤ 2147483647) (p : List Int)
    (hp : IsPlacement N p) :
    ∃ sols, enumerate N = .ok sols ∧ sols.count p = 1 := by
  obtain ⟨n, rfl⟩ := Int.eq_ofNat_of_zero_le h0
  obtain ⟨h1, h2, h3⟩ := hp
  refine ⟨completions n n [], enumerate_eq n, ?_⟩
  exact count_eq_one_of_nodup_of_mem _ _ (completions_nodup n n [])
    (completions_complete n (by omega) n [] p (by simp) ⟨p, rfl⟩ (by omega) h2 h3)

theorem enumerate_complete_witness :
    IsPlacement 4 [1, 3, 0, 2] ∧ ∃ sols, enumerate 4 = .ok sols ∧ sols.count [1, 3, 0, 2] = 1 :=
  ⟨by decide, enumerate_complete 4 (by decide) (by decide) [1, 3, 0, 2] (by decide)⟩

/-- C3 (discovery order is lexicographic): for every `N ≥ 0` the list returned by
`enumerate(N)` is strictly increasing in the lexicographic order on column vectors:
for indices `i < j`, solution `i` is lexicographically smaller than solution `j`. -/
theorem enumerate_lexicographic (N : Int) (h0 : 0 ≤ N) :
    ∃ sols, enumerate N = .ok sols ∧
      ∀ (i j : Nat) (x y : List Int), i < j → sols[i]? = some x → sols[j]? = some y →
        lexLt x y = true := by
  obtain ⟨n, rfl⟩ := Int.eq_ofNat_of_zero_le h0
  refine ⟨completions n n [], enumerate_eq n, fun i j x y hij hx hy => ?_⟩
  obtain ⟨hi, rfl⟩ := List.getElem?_eq_some_iff.mp hx
  obtain ⟨hj, rfl⟩ := List.getElem?_eq_some_iff.mp hy
  exact List.pairwise_iff_getElem.mp (completions_sorted n n []) i j hi hj hij

theorem enumerate_lexicographic_witness :
    ∃ sols, enumerate 5 = .ok sols ∧
      ∀ (i j : Nat) (x y : List Int), i < j → sols[i]? = some x → sols[j]? = some y →
        lexLt x y = true :=
  enumerate_lexicographic 5 (by decide)

/-- C4, as the code has it: for every negative board size the run `enumerate(N)` and the
Compute step fail before any search work and produce no solution list; the failure is
the length error that `cols.assign(N, -1)` throws, for every prior state. -/
theorem enumerate_negative (N : Int) (hN : N < 0) (st : AppState) :
    vecAssign N (-1) = .error .lengthError ∧
    enumerate N = .error .lengthError ∧
    computeSolutions N st = .error .lengthError := by
  have h : vecAssign N (-1) = .error .lengthError := by
    rw [vecAssign, if_pos hN]
  refine ⟨h, ?_, ?_⟩
  · simp only [enumerate, h]
  · simp only [computeSolutions, h]

theorem enumerate_negative_witness :
    vecAssign (-5) (-1) = .error .lengthError ∧
    enumerate (-5) = .error .lengthError ∧
    computeSolutions (-5) (AppState.mk [[1, 3, 0, 2]] [1, 3, 0, 2] 0)
      = .error .lengthError :=
  enumerate_negative (-5) (by decide) (AppState.mk [[1, 3, 0, 2]] [1, 3, 0, 2] 0)

/-- C4, as stated, fails at `N = -1`: the run fails with the length error of
`cols.assign`, which is not an invalid-argument error. -/
theorem enumerate_negative_counterexample :
    enumerate (-1) = .error .lengthError ∧ enumerate (-1) ≠ .error .invalidArgument := by
  decide

/-- C5 (known solution counts): the list returned by `enumerate(N)` has 1, 1, 0, 0, 2, 10,
4, 40, 92 elements for `N = 0, 1, .., 8`, and for `N = 0` its one element is the empty
placement. -/
theorem enumerate_counts :
    enumerate 0 = .ok [[]] ∧
    (enumerate 0).map List.length = .ok 1 ∧
    (enumerate 1).map List.length = .ok 1 ∧
    (enumerate 2).map List.length = .ok 0 ∧
    (enumerate 3).map List.length = .ok 0 ∧
    (enumerate 4).map List.length = .ok 2 ∧
    (enumerate 5).map List.length = .ok 10 ∧
    (enumerate 6).map List.length = .ok 4 ∧
    (enumerate 7).map List.length = .ok 40 ∧
    (enumerate 8).map List.length = .ok 92 := by
  have h0 : countNat 0 0 [] = 1 := by decide!
  have h1 : countNat 1 1 [] = 1 := by decide!
  have h2 : countNat 2 2 [] = 0 := by decide!
  have h3 : countNat 3 3 [] = 0 := by decide!
  have h4 : countNat 4 4 [] = 2 := by decide!
  have h5 : countNat 5 5 [] = 10 := by decide!
  have h6 : countNat 6 6 [] = 4 := by decide!
  have h7 : countNat 7 7 [] = 40 := by decide!
  have h8 : countNat 8 8 [] = 92 := by decide!
  have e0 := enumerate_length 0 (by decide)
  have e1 := enumerate_length 1 (by decide)
  have e2 := enumerate_length 2 (by decide)
  have e3 := enumerate_length 3 (by decide)
  have e4 := enumerate_length 4 (by decide)
  have e5 := enumerate_length 5 (by decide)
  have e6 := enumerate_length 6 (by decide)
  have e7 := enumerate_length 7 (by decide)
  have e8 := enumerate_length 8 (by decide)
  rw [h0] at e0
  rw [h1] at e1
  rw [h2] at e2
  rw [h3] at e3
  rw [h4] at e4
  rw [h5] at e5
  rw [h6] at e6
  rw [h7] at e7
  rw [h8] at e8
  exact ⟨by decide, e0, e1, e2, e3, e4, e5, e6, e7, e8⟩

/-- C6 (reference trace for `N = 4`): `enumerate(4)` returns exactly the list
`[[1,3,0,2], [2,0,3,1]]`, in this order. -/
theorem enumerate_four : enumerate 4 = .ok [[1, 3, 0, 2], [2, 0, 3, 1]] := by
  decide!

/-- C7 (each invocation is independent and reproducible): for every `N ≥ 0` and any two
prior program states, the Compute step succeeds from both and leaves the same state:
the solution list is the one `enumerate(N)` returns from an empty list, so it holds no
entry of an earlier call, and `current` is 0. -/
theorem computeSolutions_reproducible (N : Int) (h0 : 0 ≤ N) (st1 st2 : AppState) :
    ∃ st, computeSolutions N st1 = .ok st ∧ computeSolutions N st2 = .ok st ∧
      enumerate N = .ok st.solutions ∧ st.current = 0 := by
  obtain ⟨n, rfl⟩ := Int.eq_ofNat_of_zero_le h0
  obtain ⟨cols, h, -, -⟩ := solveNQueens_run n n 0 (n + 1) (List.replicate n (-1)) []
    (by omega) (by simp) (by omega)
  rw [show ((0 : Nat) : Int) = 0 from rfl] at h
  refine ⟨⟨completions n n [], cols, 0⟩, ?_, ?_, enumerate_eq n, rfl⟩
  · simp only [computeSolutions, vecAssign_natCast, Int.toNat_ofNat, h]
    simp
  · simp only [computeSolutions, vecAssign_natCast, Int.toNat_ofNat, h]
    simp

theorem computeSolutions_reproducible_witness :
    ∃ st, computeSolutions 4 (AppState.mk [] [] 0) = .ok st ∧
      computeSolutions 4 (AppState.mk [[0, 1, 2, 3, 4], [9]] [5, 5, 5, 5, 5, 5] 1) = .ok st ∧
      enumerate 4 = .ok st.solutions ∧ st.current = 0 :=
  computeSolutions_reproducible 4 (by decide) (AppState.mk [] [] 0)
    (AppState.mk [[0, 1, 2, 3, 4], [9]] [5, 5, 5, 5, 5, 5] 1)

/-- C8 (playback stepping wraps around): with `s > 0` solutions (`s` within the size a
vector can have) and `current < s`, `Next` and a due auto-advance set `current` to
`(current + 1) mod s`, `Prev` sets it to `(current + s - 1) mod s`, the list is not
touched, both new indices are below `s`, `Next` on the last index gives 0 and `Prev`
on index 0 gives `s - 1`.  With an empty solution list `Next`, `Prev` and the
auto-advance leave the state unchanged. -/
theorem playback_wraps (st : AppState) (hs : 0 < st.solutions.length)
    (hmax : st.solutions.length ≤ 9223372036854775807)
    (hc : st.current < st.solutions.length) :
    nextStep st = ⟨st.solutions, st.cols, (st.current + 1) % st.solutions.length⟩ ∧
    autoAdvance true true st = nextStep st ∧
    prevStep st
      = ⟨st.solutions, st.cols, (st.current + st.solutions.length - 1) % st.solutions.length⟩ ∧
    (nextStep st).current < st.solutions.length ∧
    (prevStep st).current < st.solutions.length ∧
    (st.current + 1 = st.solutions.length → (nextStep st).current = 0) ∧
    (st.current = 0 → (prevStep st).current = st.solutions.length - 1) ∧
    (∀ (cols0 : List Int) (current0 : Nat) (a d : Bool),
      nextStep ⟨[], cols0, current0⟩ = ⟨[], cols0, current0⟩ ∧
      prevStep ⟨[], cols0, current0⟩ = ⟨[], cols0, current0⟩ ∧
      autoAdvance a d ⟨[], cols0, current0⟩ = ⟨[], cols0, current0⟩) := by
  obtain ⟨sols, cols, cur⟩ := st
  simp only at hs hmax hc
  have hne : sols.isEmpty = false := by
    cases sols with
    | nil => simp at hs
    | cons a l => rfl
  have hsize : solutionsSize ⟨sols, cols, cur⟩ = sols.length := by
    simp only [solutionsSize, wrapSize]; omega
  have hnext : wrapSize (cur + 1) % sols.length = (cur + 1) % sols.length := by
    simp only [wrapSize]
    rw [Nat.mod_eq_of_lt (a := cur + 1) (by omega)]
  have hprev : wrapSize (wrapSize (cur + sols.length) + 18446744073709551615) % sols.length
      = (cur + sols.length - 1) % sols.length := by
    simp only [wrapSize]
    have e : (cur + sols.length) % 18446744073709551616 = cur + sols.length :=
      Nat.mod_eq_of_lt (by omega)
    have e2 : (cur + sols.length + 18446744073709551615) % 18446744073709551616
        = cur + sols.length - 1 := by omega
    rw [e, e2]
  have hN : nextStep ⟨sols, cols, cur⟩ = ⟨sols, cols, (cur + 1) % sols.length⟩ := by
    simp only [nextStep, hne, hsize, hnext]
    simp
  have hP : prevStep ⟨sols, cols, cur⟩
      = ⟨sols, cols, (cur + sols.length - 1) % sols.length⟩ := by
    simp only [prevStep, hne, hsize, hprev]
    simp
  refine ⟨hN, ?_, hP, ?_, ?_, ?_, ?_, ?_⟩
  · rw [hN]
    simp only [autoAdvance, hne, hsize, hnext]
    simp
  · rw [hN]; exact Nat.mod_lt _ hs
  · rw [hP]; exact Nat.mod_lt _ hs
  · intro h
    rw [hN]
    show (cur + 1) % sols.length = 0
    have h2 : cur + 1 = sols.length := h
    rw [h2]; exact Nat.mod_self _
  · intro h
    rw [hP]
    show (cur + sols.length - 1) % sols.length = sols.length - 1
    have h2 : cur = 0 := h
    rw [h2, Nat.zero_add]
    exact Nat.mod_eq_of_lt (by omega)
  · intro cols0 current0 a d
    refine ⟨rfl, rfl, ?_⟩
    simp [autoAdvance]

theorem playback_wraps_witness :
    nextStep (AppState.mk [[1, 3, 0, 2], [2, 0, 3, 1]] [2, 0, 3, 1] 1)
      = AppState.mk [[1, 3, 0, 2], [2, 0, 3, 1]] [2, 0, 3, 1] 0 ∧
    prevStep (AppState.mk [[1, 3, 0, 2], [2, 0, 3, 1]] [2, 0, 3, 1] 1)
      = AppState.mk [[1, 3, 0, 2], [2, 0, 3, 1]] [2, 0, 3, 1] 0 :=
  have h := playback_wraps (AppState.mk [[1, 3, 0, 2], [2, 0, 3, 1]] [2, 0, 3, 1] 1)
    (by decide) (by decide) (by decide)
  ⟨h.1, h.2.2.1⟩

/-- C9 (totality of the search): for `0 ≤ row ≤ N` and a buffer of length `N`, the call
`solveNQueens(N, row, cols, solutions)` returns without a fault as soon as the fuel
allows `N - row + 1` nested calls: the recursion is no deeper than that and no access
to the buffer is out of bounds.  The buffer keeps its length and the rows below `row`,
and the output list is only appended to. -/
theorem solveNQueens_total (N row : Int) (cols : List Int) (S : List (List Int))
    (fuel : Nat) (h0 : 0 ≤ row) (h1 : row ≤ N) (hlen : (cols.length : Int) = N)
    (hfuel : (N - row).toNat + 1 ≤ fuel) :
    ∃ cols1 S1, solveNQueens fuel N row cols S = .ok (cols1, S ++ S1) ∧
      cols1.length = cols.length ∧ cols1.take row.toNat = cols.take row.toNat := by
  obtain ⟨r, rfl⟩ := Int.eq_ofNat_of_zero_le h0
  obtain ⟨n, rfl⟩ := Int.eq_ofNat_of_zero_le (h0.trans h1)
  have hl : cols.length = n := by omega
  obtain ⟨cols1, h, h2, h3⟩ := solveNQueens_run n (n - r) r fuel cols S (by omega) hl
    (by omega)
  exact ⟨cols1, _, h, by omega, by simpa using h3⟩

theorem solveNQueens_total_witness :
    ∃ cols1 S1, solveNQueens 3 4 2 [1, 3, 9, 9] [[5]] = .ok (cols1, [[5]] ++ S1) ∧
      cols1.length = [1, 3, 9, 9].length ∧
      cols1.take (2 : Int).toNat = [1, 3, 9, 9].take (2 : Int).toNat :=
  solveNQueens_total 4 2 [1, 3, 9, 9] [[5]] 3 (by decide) (by decide) (by decide)
    (by decide)

/-- C10 (stale buffer entries never influence the search): for `0 ≤ row ≤ N` and two
buffers of length `N` that agree on rows `0..row-1`, the calls
`solveNQueens(N, row, cols, S)` and `solveNQueens(N, row, cols2, S)` return the same
output list, and so does the variant that restores `cols[row]` after each nested call.
At `row = 0` every two buffers of length `N` agree, so the output does not depend on
the initial content of the buffer. -/
theorem stale_entries_ignored (N row : Int) (cols cols2 : List Int) (S : List (List Int))
    (fuel : Nat) (h0 : 0 ≤ row) (h1 : row ≤ N) (hlen : (cols.length : Int) = N)
    (hlen2 : (cols2.length : Int) = N)
    (hagree : cols.take row.toNat = cols2.take row.toNat)
    (hfuel : (N - row).toNat + 1 ≤ fuel) :
    ∃ out b1 b2 b3,
      solveNQueens fuel N row cols S = .ok (b1, out) ∧
      solveNQueens fuel N row cols2 S = .ok (b2, out) ∧
      solveNQueensRestore fuel N row cols S = .ok (b3, out) := by
  obtain ⟨r, rfl⟩ := Int.eq_ofNat_of_zero_le h0
  obtain ⟨n, rfl⟩ := Int.eq_ofNat_of_zero_le (h0.trans h1)
  rw [Int.toNat_ofNat] at hagree
  obtain ⟨b1, e1, -, -⟩ := solveNQueens_run n (n - r) r fuel cols S (by omega) (by omega)
    (by omega)
  obtain ⟨b2, e2, -, -⟩ := solveNQueens_run n (n - r) r fuel cols2 S (by omega) (by omega)
    (by omega)
  obtain ⟨b3, e3, -, -⟩ := solveNQueensRestore_run n (n - r) r fuel cols S (by omega)
    (by omega) (by omega)
  rw [← hagree] at e2
  exact ⟨_, b1, b2, b3, e1, e2, e3⟩

theorem stale_entries_ignored_witness :
    ∃ out b1 b2 b3,
      solveNQueens 5 4 0 [-1, -1, -1, -1] [] = .ok (b1, out) ∧
      solveNQueens 5 4 0 [3, 3, 0, 7] [] = .ok (b2, out) ∧
      solveNQueensRestore 5 4 0 [-1, -1, -1, -1] [] = .ok (b3, out) :=
  stale_entries_ignored 4 0 [-1, -1, -1, -1] [3, 3, 0, 7] [] 5 (by decide) (by decide)
    (by decide) (by decide) (by decide) (by decide)

end NQueens
